import Mathlib

/-!
Verification of mlworkflow (src/mlworkflow/datasets.py) against its
natural-language specification.

Shallow embedding: Python functions become Lean functions, file I/O becomes
an explicit record model, exceptions become `Except`/`Option` results.
Each definition is traced from the source file; line references point into
src/mlworkflow/datasets.py.
-/

namespace MLW

/-! ## chunkify (datasets.py lines 12-31)

`chunkify(iterable, n)` yields complete sublists of length `n`, then a final
(possibly incomplete, possibly empty) sublist.  For a sequence of length `≤ n`
the loop never yields, and the trailing `yield ret[:i-offset+1]` produces the
whole sequence (the empty list when the input is empty).  For longer input the
first `n` elements are yielded as one chunk and the generator continues on the
rest.  CPython raises IndexError when `n = 0` and the input is non-empty; the
`n = 0` guard below is only there for totality and every theorem assumes
`0 < n`. -/

def chunkify (l : List α) (n : Nat) : List (List α) :=
  if l.length ≤ n ∨ n = 0 then [l]
  else l.take n :: chunkify (l.drop n) n
termination_by l.length
decreasing_by
  simp only [not_or] at *
  simp only [List.length_drop]
  omega

theorem chunkify_nil (n : Nat) : chunkify ([] : List α) n = [[]] := by
  rw [chunkify]
  simp

theorem chunkify_of_le (l : List α) (n : Nat) (h : l.length ≤ n) :
    chunkify l n = [l] := by
  rw [chunkify]
  simp [h]

theorem chunkify_of_gt (l : List α) (n : Nat) (hn : 0 < n) (h : n < l.length) :
    chunkify l n = l.take n :: chunkify (l.drop n) n := by
  rw [chunkify, if_neg (by omega)]

theorem chunkify_ne_nil (l : List α) (n : Nat) : chunkify l n ≠ [] := by
  rw [chunkify]
  split
  · simp
  · simp

theorem chunkify_flatten (l : List α) (n : Nat) (hn : 0 < n) :
    (chunkify l n).flatten = l := by
  induction l, n using chunkify.induct with
  | case1 l n h =>
    rw [chunkify, if_pos h]
    simp
  | case2 l n h ih =>
    simp only [not_or] at h
    rw [chunkify, if_neg (by simp only [not_or]; omega)]
    simp [ih hn]

theorem chunkify_full (l : List α) (n : Nat) (hn : 0 < n) :
    ∀ i, i + 1 < (chunkify l n).length → ((chunkify l n).getD i []).length = n := by
  induction l, n using chunkify.induct with
  | case1 l n h =>
    intro i hi
    rw [chunkify, if_pos h] at hi
    simp at hi
  | case2 l n h ih =>
    simp only [not_or] at h
    intro i hi
    rw [chunkify, if_neg (by simp only [not_or]; omega)] at hi ⊢
    match i with
    | 0 =>
      simp only [List.getD_cons_zero]
      simp only [List.length_take]
      omega
    | i + 1 =>
      simp only [List.getD_cons_succ]
      exact ih hn i (by simpa using hi)

/-- Length of each chunk is at most `n`. -/
theorem chunkify_le (l : List α) (n : Nat) (hn : 0 < n) :
    ∀ i, i < (chunkify l n).length → ((chunkify l n).getD i []).length ≤ n := by
  induction l, n using chunkify.induct with
  | case1 l n h =>
    intro i hi
    rw [chunkify, if_pos h] at hi ⊢
    match i with
    | 0 =>
      simp only [List.getD_cons_zero]
      rcases h with h | h
      · exact h
      · omega
    | i + 1 => simp at hi
  | case2 l n h ih =>
    simp only [not_or] at h
    intro i hi
    rw [chunkify, if_neg (by simp only [not_or]; omega)] at hi ⊢
    match i with
    | 0 =>
      simp only [List.getD_cons_zero, List.length_take]
      omega
    | i + 1 =>
      simp only [List.getD_cons_succ]
      exact ih hn i (by simpa using hi)

/-- Number of chunks: `max 1 (ceil (len l / n))`; we only need this bound form:
the chunk list is non-empty and all indices below `length - 1` are full. -/
theorem chunkify_length_pos (l : List α) (n : Nat) :
    0 < (chunkify l n).length :=
  List.length_pos.mpr (chunkify_ne_nil l n)

/-- C9: for every finite sequence `S` and chunk size `n > 0`, concatenating the
chunks yielded by `chunkify S n` reproduces `S` exactly, every yielded chunk
except possibly the last has length exactly `n`, and splitting an empty
sequence yields exactly one chunk, the empty one. -/
theorem chunkify_spec (l : List α) (n : Nat) (hn : 0 < n) :
    (chunkify l n).flatten = l ∧
    (∀ i, i + 1 < (chunkify l n).length → ((chunkify l n).getD i []).length = n) ∧
    chunkify ([] : List α) n = [[]] :=
  ⟨chunkify_flatten l n hn, chunkify_full l n hn, chunkify_nil n⟩

/-- Witness for C9 at `l = [1,2,3,4,5]`, `n = 2`. -/
theorem chunkify_spec_witness :
    0 < 2 ∧
    ((chunkify [1, 2, 3, 4, 5] 2).flatten = [1, 2, 3, 4, 5] ∧
     (∀ i, i + 1 < (chunkify [1, 2, 3, 4, 5] 2).length →
        ((chunkify [1, 2, 3, 4, 5] 2).getD i []).length = 2) ∧
     chunkify ([] : List Nat) 2 = [[]]) :=
  ⟨by decide, chunkify_spec [1, 2, 3, 4, 5] 2 (by decide)⟩

/-! ## Dataset.query (datasets.py lines 58-81)

An item is a tuple; we embed it as `List α`.  A dataset's `query_item` is a
pure function `d : κ → List α` (the claims quantify over arbitrary datasets).

The source:
- pulls the first key from the iterator (`StopIteration` on an empty key
  list — the spec's `EmptyBatch` error),
- takes `width = len(first)` as the batch arity,
- allocates `width` column arrays of length `len(keys)` and fills
  `XYs[j][i] = item_i[j]`; reading `item[j]` on a later item shorter than
  `width` is an IndexError.

We embed the error outcomes in `QueryError` and additionally return the trace
of `query_item` calls (the source calls `query_item` once per visited key, in
order; the trace records exactly those calls so call-count claims are
statable).  Only the default `wrap=False` path is modelled — the claims do not
mention `wrap`. -/

inductive QueryError where
  | emptyBatch
  | indexError
deriving DecidableEq, Repr

/-- The remaining-keys loop of `query` (lines 75-80): each visited key is one
`query_item` call; the row kept for key `k` is the first `width` components of
its item, and a shorter item faults.  Returns the outcome together with the
list of `query_item` calls actually made (in order, stopping at a fault). -/
def queryRows (d : κ → List α) (width : Nat) :
    List κ → Except QueryError (List (List α)) × List κ
  | [] => (.ok [], [])
  | k :: ks =>
    if (d k).length < width then (.error .indexError, [k])
    else
      match queryRows d width ks with
      | (res, log) => (res.map (fun rows => (d k).take width :: rows), k :: log)

/-- `Dataset.query` (lines 58-81): returns the tuple of column arrays
(`XYs[j][i] = item_i[j]`) together with the ordered trace of `query_item`
calls. -/
def query [Inhabited α] (d : κ → List α) (keys : List κ) :
    Except QueryError (List (List α)) × List κ :=
  match keys with
  | [] => (.error .emptyBatch, [])
  | key0 :: rest =>
    let first := d key0
    let width := first.length
    let r := queryRows d width rest
    ((r.1).map (fun rows =>
        (List.range width).map
          (fun j => first.getD j default :: rows.map (fun row => row.getD j default))),
     key0 :: r.2)

theorem queryRows_ok (d : κ → List α) (width : Nat) (ks : List κ)
    (h : ∀ k ∈ ks, width ≤ (d k).length) :
    queryRows d width ks =
      (.ok (ks.map (fun k => (d k).take width)), ks) := by
  induction ks with
  | nil => rfl
  | cons k ks ih =>
    have hk := h k (by simp)
    rw [queryRows, if_neg (show ¬((d k).length < width) by omega),
      ih (fun k' hk' => h k' (by simp [hk']))]
    simp [Except.map]

/-- C3: for every dataset (uniform item arity, per the spec's data model) and
every non-empty key list, `query` succeeds and returns one array per tuple
position of the first key's item; each array has length `len keys`; position
`i` of array `j` holds component `j` of `keys[i]`'s item; and exactly
`len keys` calls to `query_item` are made, one per key, in the order of
`keys`. -/
theorem query_spec [Inhabited α] (d : κ → List α) (keys : List κ)
    (k0 : κ) (rest : List κ) (hkeys : keys = k0 :: rest)
    (harity : ∀ k ∈ keys, (d k).length = (d k0).length) :
    ∃ arrays, (query d keys).1 = .ok arrays ∧
      arrays.length = (d k0).length ∧
      (∀ j, j < arrays.length → (arrays.getD j []).length = keys.length) ∧
      (∀ i j, i < keys.length → j < arrays.length →
        (arrays.getD j []).getD i default = (d (keys.getD i k0)).getD j default) ∧
      (query d keys).2 = keys := by
  subst hkeys
  have hrest : ∀ k ∈ rest, (d k0).length ≤ (d k).length := by
    intro k hk
    exact le_of_eq (harity k (by simp [hk])).symm
  refine ⟨(List.range (d k0).length).map
      (fun j => (d k0).getD j default ::
        (rest.map (fun k => (d k).take (d k0).length)).map
          (fun row => row.getD j default)), ?_, ?_, ?_, ?_, ?_⟩
  · simp only [query, queryRows_ok d _ rest hrest]
    rfl
  · simp
  · intro j hj
    simp only [List.length_map, List.length_range] at hj
    rw [List.getD_eq_getElem?_getD]
    rw [List.getElem?_map, List.getElem?_range hj]
    simp
  · intro i j hi hj
    simp only [List.length_map, List.length_range] at hj
    simp only [List.length_cons] at hi
    have hcol : ((List.range (d k0).length).map
        (fun j => (d k0).getD j default ::
          (rest.map (fun k => (d k).take (d k0).length)).map
            (fun row => row.getD j default))).getD j [] =
        (d k0).getD j default ::
          (rest.map (fun k => (d k).take (d k0).length)).map
            (fun row => row.getD j default) := by
      rw [List.getD_eq_getElem?_getD, List.getElem?_map, List.getElem?_range hj]
      rfl
    rw [hcol]
    match i with
    | 0 => simp
    | i + 1 =>
      have hi' : i < rest.length := by omega
      simp only [List.getD_cons_succ, List.getD_eq_getElem?_getD, List.getElem?_cons_succ,
        List.getElem?_map, List.getElem?_eq_getElem hi', Option.map_some', Option.getD_some,
        List.getElem?_take_of_lt hj]
  · simp only [query, queryRows_ok d _ rest hrest]

/-- Witness for C3: the two-key, arity-two dataset from the source's doctest
shape, `d k = [k, k + 10]`, keys `[1, 2]`. -/
theorem query_spec_witness :
    ([1, 2] : List Nat) = 1 :: [2] ∧
    (∀ k ∈ ([1, 2] : List Nat),
      ([k, k + 10] : List Nat).length = ([1, 1 + 10] : List Nat).length) ∧
    (∃ arrays, (query (fun k : Nat => [k, k + 10]) [1, 2]).1 = .ok arrays ∧
      arrays.length = ([1, 1 + 10] : List Nat).length ∧
      (∀ j, j < arrays.length → (arrays.getD j []).length = ([1, 2] : List Nat).length) ∧
      (∀ i j, i < ([1, 2] : List Nat).length → j < arrays.length →
        (arrays.getD j []).getD i default =
          ((fun k : Nat => [k, k + 10]) (([1, 2] : List Nat).getD i 1)).getD j default) ∧
      (query (fun k : Nat => [k, k + 10]) [1, 2]).2 = [1, 2]) :=
  ⟨rfl, by decide,
    query_spec (fun k : Nat => [k, k + 10]) [1, 2] 1 [2] rfl (by decide)⟩

/-- C5: for every dataset, `query` on the empty key list fails (the source
raises on `next(iterator)` before any `query_item` call — the spec's
`EmptyBatch` error) and the trace of `query_item` calls is empty. -/
theorem query_empty_spec [Inhabited α] (d : κ → List α) :
    query d ([] : List κ) = (.error .emptyBatch, []) := rfl

/-! ## Dataset.balanced_batches (datasets.py lines 91-108)

```
sub_sizes = batch_size // len(split_keys)
assert sub_sizes * len(split_keys) == batch_size
batched_keys = [chunkify(keys, sub_sizes) for keys in split_keys]
for parallel in zip(*batched_keys):
    min_length = min(len(p) for p in parallel)
    if min_length != batch_size:
        parallel = [p[:min_length] for p in parallel]
    Xs, Ys = self.query(sum(parallel, []), **kwargs)
    yield Xs, Ys
```

With no groups, `batch_size // len(split_keys)` raises ZeroDivisionError; with
groups present but an uneven split, the `assert` raises (the spec's
`EvenSplitRequired`).  `zip(*batched_keys)` consumes one chunk per group per
iteration, stopping at the shortest chunk sequence; we model it on fully
materialized chunk lists as `zipStar` (transpose truncated to the minimum
length).  The source yields `self.query(sum(parallel, []))`; we model the
combined key list handed to `query` per iteration (the resulting batch arrays
are what `query` makes of it, settled separately). -/

inductive BBError where
  | zeroDivision
  | evenSplitRequired
deriving DecidableEq, Repr

/-- Python's `min` over a non-empty list (`min(len(p) for p in parallel)`);
the `[]` case is unreachable in context. -/
def minList : List Nat → Nat
  | [] => 0
  | x :: xs => xs.foldl min x

/-- `zip(*lists)`: one tuple per iteration while every list still has an
element.  `zip()` of no iterables is empty, matching the `ls = []` guard. -/
def zipStar [Inhabited β] (ls : List (List β)) : List (List β) :=
  if h : ls.isEmpty ∨ ls.any List.isEmpty then []
  else (ls.map List.headI) :: zipStar (ls.map List.tail)
termination_by (ls.map List.length).sum
decreasing_by
  rw [List.map_map]
  simp only [not_or] at h
  obtain ⟨h1, h2⟩ := h
  have h1' : ls ≠ [] := by simpa [List.isEmpty_iff] using h1
  have h2' : ∀ l ∈ ls, l ≠ [] := by
    intro l hl hnil
    exact h2 (List.any_eq_true.mpr ⟨l, hl, by simp [hnil]⟩)
  apply List.sum_lt_sum
  · intro l hl
    simp only [Function.comp_apply, List.length_tail]
    omega
  · obtain ⟨a, ls', rfl⟩ : ∃ a ls', ls = a :: ls' := by
      cases ls with
      | nil => exact absurd rfl h1'
      | cons a t => exact ⟨a, t, rfl⟩
    refine ⟨a, by simp, ?_⟩
    have ha : a ≠ [] := h2' a (by simp)
    have ha' : a.length ≠ 0 := by simpa [List.length_eq_zero] using ha
    simp only [Function.comp_apply, List.length_tail]
    omega

/-- Loop body, lines 103-108: truncate every chunk of the iteration to the
minimum chunk length whenever that minimum differs from `batch_size` (the
source compares `min_length` to `batch_size`), then concatenate the chunks in
group order (`sum(parallel, [])`). -/
def balancedCombine (batch_size : Nat) (parallel : List (List κ)) : List κ :=
  (if minList (parallel.map List.length) ≠ batch_size then
    parallel.map (List.take (minList (parallel.map List.length)))
  else parallel).foldl (· ++ ·) []

def balancedBatches (split_keys : List (List κ)) (batch_size : Nat) :
    Except BBError (List (List κ)) :=
  if split_keys.length = 0 then .error .zeroDivision
  else if (batch_size / split_keys.length) * split_keys.length = batch_size then
    .ok ((zipStar (split_keys.map
          (fun keys => chunkify keys (batch_size / split_keys.length)))).map
      (balancedCombine batch_size))
  else .error .evenSplitRequired

/-- The per-group chunk sequences (`batched_keys`, lines 100-101). -/
def groupChunkLists (split_keys : List (List κ)) (batch_size : Nat) :
    List (List (List κ)) :=
  split_keys.map (fun keys => chunkify keys (batch_size / split_keys.length))

/-- `min_length` of iteration `t`: the minimum over the groups of the length
of the chunk consumed from that group at iteration `t`. -/
def iterTruncLen (split_keys : List (List κ)) (batch_size t : Nat) : Nat :=
  minList ((groupChunkLists split_keys batch_size).map
    (fun cl => (cl.getD t []).length))

theorem foldl_min_le_init (xs : List Nat) (a : Nat) : xs.foldl min a ≤ a := by
  induction xs generalizing a with
  | nil => exact le_refl a
  | cons x xs ih => exact le_trans (ih (min a x)) (min_le_left a x)

theorem foldl_min_le_mem (xs : List Nat) (x : Nat) (hx : x ∈ xs) :
    ∀ a, xs.foldl min a ≤ x := by
  induction xs with
  | nil => cases hx
  | cons y ys ih =>
    intro a
    rcases List.mem_cons.mp hx with rfl | hx'
    · exact le_trans (foldl_min_le_init ys (min a x)) (min_le_right a x)
    · exact ih hx' (min a y)

theorem le_foldl_min (xs : List Nat) (c : Nat) (h : ∀ x ∈ xs, c ≤ x) :
    ∀ a, c ≤ a → c ≤ xs.foldl min a := by
  induction xs with
  | nil => exact fun a ha => ha
  | cons y ys ih =>
    intro a ha
    exact ih (fun x hx => h x (by simp [hx])) (min a y) (le_min ha (h y (by simp)))

theorem foldl_min_mem (xs : List Nat) (a : Nat) :
    xs.foldl min a = a ∨ xs.foldl min a ∈ xs := by
  induction xs generalizing a with
  | nil => exact Or.inl rfl
  | cons y ys ih =>
    rcases ih (min a y) with h | h
    · rcases Nat.le_total a y with hay | hay
      · exact Or.inl (by rw [List.foldl_cons, h, Nat.min_eq_left hay])
      · refine Or.inr ?_
        rw [List.foldl_cons, h, Nat.min_eq_right hay]
        simp
    · exact Or.inr (by simp [h])

theorem minList_le (xs : List Nat) (x : Nat) (hx : x ∈ xs) : minList xs ≤ x := by
  cases xs with
  | nil => cases hx
  | cons y ys =>
    rcases List.mem_cons.mp hx with rfl | hx'
    · exact foldl_min_le_init ys x
    · exact foldl_min_le_mem ys x hx' y

theorem le_minList (xs : List Nat) (c : Nat) (hne : xs ≠ []) (h : ∀ x ∈ xs, c ≤ x) :
    c ≤ minList xs := by
  cases xs with
  | nil => cases hne rfl
  | cons y ys => exact le_foldl_min ys c (fun x hx => h x (by simp [hx])) y (h y (by simp))

theorem minList_mem (xs : List Nat) (hne : xs ≠ []) : minList xs ∈ xs := by
  cases xs with
  | nil => cases hne rfl
  | cons y ys =>
    rcases foldl_min_mem ys y with h | h
    · simp [minList, h]
    · simp [minList, h]

theorem minList_const (xs : List Nat) (c : Nat) (hne : xs ≠ []) (h : ∀ x ∈ xs, x = c) :
    minList xs = c := by
  apply le_antisymm
  · cases xs with
    | nil => cases hne rfl
    | cons y ys => exact (h y (by simp)) ▸ minList_le _ y (by simp)
  · exact le_minList xs c hne (fun x hx => (h x hx).ge)

theorem minList_map_sub_one (xs : List Nat) (hne : xs ≠ []) :
    minList (xs.map (fun x => x - 1)) = minList xs - 1 := by
  apply le_antisymm
  · exact minList_le _ _ (List.mem_map.mpr ⟨minList xs, minList_mem xs hne, rfl⟩)
  · apply le_minList _ _ (by simpa using hne)
    intro y hy
    obtain ⟨x, hx, rfl⟩ := List.mem_map.mp hy
    exact Nat.sub_le_sub_right (minList_le xs x hx) 1

theorem zipStar_length [Inhabited β] (ls : List (List β)) :
    ls ≠ [] → (zipStar ls).length = minList (ls.map List.length) := by
  induction ls using zipStar.induct with
  | case1 ls h =>
    intro hne
    rw [zipStar, dif_pos h]
    rcases h with h | h
    · exact absurd (by simpa [List.isEmpty_iff] using h) hne
    · obtain ⟨l, hl, hl0⟩ := List.any_eq_true.mp h
      have hmem : (0 : Nat) ∈ ls.map List.length :=
        List.mem_map.mpr ⟨l, hl, by simpa [List.isEmpty_iff, List.length_eq_zero] using hl0⟩
      have h0 : minList (ls.map List.length) ≤ 0 := minList_le _ 0 hmem
      simp [Nat.le_zero.mp h0]
  | case2 ls h ih =>
    intro hne
    rw [zipStar, dif_neg h]
    simp only [not_or] at h
    obtain ⟨h1, h2⟩ := h
    have h2' : ∀ l ∈ ls, l ≠ [] := fun l hl hnil =>
      h2 (List.any_eq_true.mpr ⟨l, hl, by simp [hnil]⟩)
    simp only [List.length_cons]
    rw [ih (by simpa using hne)]
    rw [List.map_map]
    have hmt : ls.map (List.length ∘ List.tail) = (ls.map List.length).map (fun x => x - 1) := by
      rw [List.map_map]
      exact List.map_congr_left (fun l _ => by simp)
    rw [hmt, minList_map_sub_one _ (by simpa using hne)]
    have hge : 1 ≤ minList (ls.map List.length) := by
      apply le_minList _ _ (by simpa using hne)
      intro x hx
      obtain ⟨l, hl, rfl⟩ := List.mem_map.mp hx
      have := h2' l hl
      have : l.length ≠ 0 := by simpa [List.length_eq_zero] using this
      omega
    omega

theorem zipStar_getD [Inhabited β] (ls : List (List β)) :
    ∀ t, t < (zipStar ls).length →
      (zipStar ls).getD t [] = ls.map (fun l => l.getD t default) := by
  induction ls using zipStar.induct with
  | case1 ls h =>
    intro t ht
    rw [zipStar, dif_pos h] at ht
    simp at ht
  | case2 ls h ih =>
    intro t ht
    rw [zipStar, dif_neg h] at ht ⊢
    match t with
    | 0 =>
      simp only [List.getD_cons_zero]
      exact List.map_congr_left (fun l _ => by cases l <;> simp)
    | t + 1 =>
      simp only [List.getD_cons_succ]
      rw [ih t (by simpa using ht), List.map_map]
      exact List.map_congr_left (fun l _ => by cases l <;> simp)

theorem foldl_append_eq_flatten (ls : List (List κ)) :
    ∀ acc : List κ, ls.foldl (· ++ ·) acc = acc ++ ls.flatten := by
  induction ls with
  | nil => intro acc; simp
  | cons l ls ih => intro acc; simp [ih, List.append_assoc]

theorem sum_map_const_of (ls : List γ) (f : γ → Nat) (c : Nat)
    (h : ∀ x ∈ ls, f x = c) : (ls.map f).sum = ls.length * c := by
  induction ls with
  | nil => simp
  | cons x xs ih =>
    simp only [List.map_cons, List.sum_cons, List.length_cons]
    rw [h x (by simp), ih (fun y hy => h y (by simp [hy]))]
    ring

/-- C4: with the group count dividing `batch_size` (groups present, positive
batch size), `balanced_batches` succeeds, and each yielded batch is the
group-order concatenation of one chunk per group, every chunk truncated to the
shortest chunk length of that iteration only; every batch except possibly the
final one has total length `batch_size`. -/
theorem balanced_batches_spec (split_keys : List (List κ)) (batch_size : Nat)
    (hne : split_keys ≠ []) (hdvd : split_keys.length ∣ batch_size)
    (hpos : 0 < batch_size) :
    ∃ batches, balancedBatches split_keys batch_size = .ok batches ∧
      (∀ t, t < batches.length →
        batches.getD t [] =
          ((groupChunkLists split_keys batch_size).map
            (fun cl => (cl.getD t []).take (iterTruncLen split_keys batch_size t))).foldl
            (· ++ ·) []) ∧
      (∀ t, t + 1 < batches.length → (batches.getD t []).length = batch_size) := by
  have hg : ¬ split_keys.length = 0 := by simpa [List.length_eq_zero] using hne
  have hmul : (batch_size / split_keys.length) * split_keys.length = batch_size :=
    Nat.div_mul_cancel hdvd
  have hsubpos : 0 < batch_size / split_keys.length := by
    rcases Nat.eq_zero_or_pos (batch_size / split_keys.length) with h0 | h
    · rw [h0, Nat.zero_mul] at hmul; omega
    · exact h
  have hsuble : batch_size / split_keys.length ≤ batch_size := Nat.div_le_self _ _
  have hcls_ne : groupChunkLists split_keys batch_size ≠ [] := by
    simp [groupChunkLists, hne]
  have hzlen : (zipStar (groupChunkLists split_keys batch_size)).length =
      minList ((groupChunkLists split_keys batch_size).map List.length) :=
    zipStar_length _ hcls_ne
  have hchunk_le : ∀ t, ∀ cl ∈ groupChunkLists split_keys batch_size,
      t < (zipStar (groupChunkLists split_keys batch_size)).length →
      t < cl.length := by
    intro t cl hcl ht
    rw [hzlen] at ht
    exact lt_of_lt_of_le ht (minList_le _ _ (List.mem_map.mpr ⟨cl, hcl, rfl⟩))
  have hbatch : ∀ t, t < (zipStar (groupChunkLists split_keys batch_size)).length →
      ((zipStar (groupChunkLists split_keys batch_size)).map
        (balancedCombine batch_size)).getD t [] =
      ((groupChunkLists split_keys batch_size).map
        (fun cl => (cl.getD t []).take (iterTruncLen split_keys batch_size t))).foldl
        (· ++ ·) [] := by
    intro t ht
    have hform : ((zipStar (groupChunkLists split_keys batch_size)).map
        (balancedCombine batch_size)).getD t [] =
        balancedCombine batch_size
          ((groupChunkLists split_keys batch_size).map (fun cl => cl.getD t [])) := by
      rw [List.getD_eq_getElem?_getD, List.getElem?_map, List.getElem?_eq_getElem ht]
      simp only [Option.map_some', Option.getD_some]
      have hz := zipStar_getD (groupChunkLists split_keys batch_size) t ht
      rw [List.getD_eq_getElem?_getD, List.getElem?_eq_getElem ht] at hz
      simp only [Option.getD_some] at hz
      rw [hz]
      rfl
    rw [hform, balancedCombine]
    have hm : minList (((groupChunkLists split_keys batch_size).map
          (fun cl => cl.getD t [])).map List.length) =
        iterTruncLen split_keys batch_size t := by
      rw [List.map_map]
      rfl
    rw [hm]
    by_cases hb : iterTruncLen split_keys batch_size t = batch_size
    · rw [if_neg (by simpa using hb)]
      congr 1
      apply List.map_congr_left
      intro cl hcl
      refine (List.take_of_length_le ?_).symm
      obtain ⟨ks, hks, hcl'⟩ := List.mem_map.mp hcl
      have h2 := hchunk_le t cl hcl ht
      rw [← hcl'] at h2
      have h1 : ((cl.getD t []).length ≤ batch_size / split_keys.length) := by
        rw [← hcl']
        exact chunkify_le ks _ hsubpos t h2
      omega
    · rw [if_pos (by simpa using hb)]
      congr 1
      rw [List.map_map]
      exact List.map_congr_left (fun cl _ => rfl)
  rw [balancedBatches, if_neg hg, if_pos hmul]
  refine ⟨(zipStar (groupChunkLists split_keys batch_size)).map
      (balancedCombine batch_size), rfl, ?_, ?_⟩
  · intro t ht
    rw [List.length_map] at ht
    exact hbatch t ht
  · intro t ht
    rw [List.length_map] at ht
    have hall : ∀ cl ∈ groupChunkLists split_keys batch_size,
        (cl.getD t []).length = batch_size / split_keys.length := by
      intro cl hcl
      obtain ⟨ks, hks, hcl'⟩ := List.mem_map.mp hcl
      rw [← hcl']
      exact chunkify_full ks _ hsubpos t (by
        have := hchunk_le (t + 1) cl hcl ht
        rw [← hcl'] at this
        omega)
    have hmt : iterTruncLen split_keys batch_size t = batch_size / split_keys.length := by
      apply minList_const _ _ (by simpa [groupChunkLists] using hne)
      intro x hx
      obtain ⟨cl, hcl, rfl⟩ := List.mem_map.mp hx
      exact hall cl hcl
    rw [hbatch t (by omega), foldl_append_eq_flatten, List.nil_append,
      List.length_flatten, List.map_map]
    have hsum : ((groupChunkLists split_keys batch_size).map
        (List.length ∘ fun cl => (cl.getD t []).take (iterTruncLen split_keys batch_size t))).sum =
        (groupChunkLists split_keys batch_size).length * (batch_size / split_keys.length) := by
      apply sum_map_const_of
      intro cl hcl
      simp only [Function.comp_apply, List.length_take, hmt, hall cl hcl]
      omega
    rw [hsum]
    have hlen : (groupChunkLists split_keys batch_size).length = split_keys.length := by
      simp [groupChunkLists]
    rw [hlen, Nat.mul_comm]
    exact hmul

/-- Counterexample to C6 as stated: with zero key groups and `batch_size = 1`
(not evenly divisible by the group count 0), `balanced_batches` fails on the
`batch_size // len(split_keys)` division (ZeroDivisionError), not on the
even-split assertion the spec calls `EvenSplitRequired`. -/
theorem balanced_batches_zero_groups_cex :
    ¬ ((List.length ([] : List (List Nat))) ∣ 1) ∧
    balancedBatches ([] : List (List Nat)) 1 = .error .zeroDivision ∧
    balancedBatches ([] : List (List Nat)) 1 ≠ .error .evenSplitRequired :=
  ⟨by decide, rfl, by simp [balancedBatches]⟩

/-- C6 (amended): for every NON-EMPTY sequence of key groups and every
`batch_size` not evenly divisible by the number of groups, `balanced_batches`
fails with the `EvenSplitRequired` error before yielding any batch (with zero
groups it fails with a division error instead). -/
theorem balanced_batches_even_split_spec (split_keys : List (List κ)) (batch_size : Nat)
    (hne : split_keys ≠ []) (hndvd : ¬ split_keys.length ∣ batch_size) :
    balancedBatches split_keys batch_size = .error .evenSplitRequired := by
  have hg : ¬ split_keys.length = 0 := by simpa [List.length_eq_zero] using hne
  rw [balancedBatches, if_neg hg, if_neg]
  intro h
  exact hndvd ⟨batch_size / split_keys.length, by rw [Nat.mul_comm]; exact h.symm⟩

/-- Witness for the amended C6: two groups, `batch_size = 3`. -/
theorem balanced_batches_even_split_witness :
    ([[1], [2]] : List (List Nat)) ≠ [] ∧
    ¬ (List.length ([[1], [2]] : List (List Nat)) ∣ 3) ∧
    balancedBatches ([[1], [2]] : List (List Nat)) 3 = .error .evenSplitRequired :=
  ⟨by decide, by decide,
    balanced_batches_even_split_spec [[1], [2]] 3 (by decide) (by decide)⟩

/-- Witness for C4: groups `[[1,2,3,4],[5,6,7,8]]`, `batch_size = 4`
(the spec's §8 example shape). -/
theorem balanced_batches_spec_witness :
    ([[1, 2, 3, 4], [5, 6, 7, 8]] : List (List Nat)) ≠ [] ∧
    List.length ([[1, 2, 3, 4], [5, 6, 7, 8]] : List (List Nat)) ∣ 4 ∧ 0 < 4 ∧
    (∃ batches,
      balancedBatches ([[1, 2, 3, 4], [5, 6, 7, 8]] : List (List Nat)) 4 = .ok batches ∧
      (∀ t, t < batches.length →
        batches.getD t [] =
          ((groupChunkLists ([[1, 2, 3, 4], [5, 6, 7, 8]] : List (List Nat)) 4).map
            (fun cl => (cl.getD t []).take
              (iterTruncLen ([[1, 2, 3, 4], [5, 6, 7, 8]] : List (List Nat)) 4 t))).foldl
            (· ++ ·) []) ∧
      (∀ t, t + 1 < batches.length → (batches.getD t []).length = 4)) :=
  ⟨by decide, by decide, by decide,
    balanced_batches_spec [[1, 2, 3, 4], [5, 6, 7, 8]] 4 (by decide) (by decide) (by decide)⟩

/-! ## CacheLastDataset (datasets.py lines 251-268)

The single-slot cache stores `self.cache = (None, None)` at construction.
`query_item` compares the requested key with the cached key using Python `!=`;
on a hit the stored item is returned with no inner call and no
`after_cache_miss` hook; on a miss the inner dataset is queried, the slot is
overwritten and the hook runs.  Python `None` is a legal key, so keys are
embedded as `Option κ` (with `none` the Python `None`) and items as
`Option ι`.  Inner calls and hook invocations are recorded in `missLog`. -/

structure CacheLastDataset (κ ι : Type) where
  inner : Option κ → Option ι
  cache : Option κ × Option ι
  missLog : List (Option κ)

/-- `CacheLastDataset.__init__` (lines 252-254). -/
def CacheLastDataset.init (inner : Option κ → Option ι) : CacheLastDataset κ ι :=
  { inner := inner, cache := (none, none), missLog := [] }

/-- `CacheLastDataset.query_item` (lines 262-268): returns the item and the
updated wrapper state; a miss appends the key to `missLog` (one inner
`query_item` call plus one `after_cache_miss` invocation). -/
def CacheLastDataset.query_item [DecidableEq κ] (c : CacheLastDataset κ ι)
    (key : Option κ) : Option ι × CacheLastDataset κ ι :=
  if key ≠ c.cache.1 then
    ((c.inner key),
      { c with cache := (key, c.inner key), missLog := c.missLog ++ [key] })
  else (c.cache.2, c)

/-- C10: on a freshly constructed `CacheLastDataset`, querying the key `None`
hits the `(None, None)` sentinel slot: the result is `None`, the state is
unchanged (in particular the miss log stays empty, so the inner dataset was
not queried and `after_cache_miss` did not run) — whatever the inner dataset
is. -/
theorem cache_last_none_key_spec [DecidableEq κ] (inner : Option κ → Option ι) :
    (CacheLastDataset.init inner).query_item none =
      (none, CacheLastDataset.init inner) ∧
    ((CacheLastDataset.init inner).query_item none).2.missLog = [] :=
  ⟨rfl, rfl⟩

/-! ## CachedDataset (datasets.py lines 343-369)

The full memoizing cache: `cache` is a dict (embedded as an association list
in insertion order), `dataset` the inner dataset (dropped by `fill_forget`).
The inner dataset is a key enumeration plus a `query_item` function.  The
`forgotten` flag models the per-instance `list_keys` method swap
(`self.list_keys = self._cached_keys`).  `query_item` on a cache miss with no
inner dataset is Python `AttributeError: 'NoneType' ...`, embedded as
`none`. -/

structure CachedDataset (κ ι : Type) where
  dataset : Option (List κ × (κ → ι))
  cache : List (κ × ι)
  forgotten : Bool

def CachedDataset.init (innerKeys : List κ) (innerQuery : κ → ι) :
    CachedDataset κ ι :=
  { dataset := some (innerKeys, innerQuery), cache := [], forgotten := false }

/-- Dict lookup, `self.cache.get(key, None)` (line 354). -/
def dictLookup [DecidableEq κ] : List (κ × μ) → κ → Option μ
  | [], _ => none
  | (k', v) :: rest, k => if k = k' then some v else dictLookup rest k

/-- `CachedDataset.query_item` (lines 353-359): cache hit returns the stored
tuple; a miss queries the inner dataset and appends to the cache (dict
insertion order); a miss after `fill_forget` has no inner dataset to fall
back to and faults. -/
def CachedDataset.query_item [DecidableEq κ] (c : CachedDataset κ ι) (key : κ) :
    Option (ι × CachedDataset κ ι) :=
  match dictLookup c.cache key with
  | some tup => some (tup, c)
  | none =>
    match c.dataset with
    | none => none
    | some (_, q) => some (q key, { c with cache := c.cache ++ [(key, q key)] })

/-- `list_keys` (lines 349-351, 361-362, 367): the inner enumeration before
`fill_forget`, the cached keys after. -/
def CachedDataset.list_keys (c : CachedDataset κ ι) : Option (List κ) :=
  if c.forgotten then some (c.cache.map Prod.fst)
  else c.dataset.map Prod.fst

/-- The `for key in self.dataset.list_keys(): self.query_item(key)` loop of
`fill_forget` (lines 365-366). -/
def CachedDataset.fillLoop [DecidableEq κ] (c : CachedDataset κ ι) :
    List κ → CachedDataset κ ι
  | [] => c
  | k :: ks =>
    match c.query_item k with
    | some (_, c') => c'.fillLoop ks
    | none => c.fillLoop ks

/-- `CachedDataset.fill_forget` (lines 364-369): eagerly query every inner
key, then swap `list_keys` to the cached keys and drop the inner dataset. -/
def CachedDataset.fill_forget [DecidableEq κ] (c : CachedDataset κ ι) :
    CachedDataset κ ι :=
  match c.dataset with
  | none => c
  | some (innerKeys, _) =>
    let c' := c.fillLoop innerKeys
    { c' with forgotten := true, dataset := none }

theorem dictLookup_append_ne [DecidableEq κ] (m : List (κ × μ)) (k k' : κ) (v : μ)
    (h : k ≠ k') : dictLookup (m ++ [(k', v)]) k = dictLookup m k := by
  induction m with
  | nil => simp [dictLookup, h]
  | cons p rest ih =>
    rw [List.cons_append, dictLookup, dictLookup]
    split
    · rfl
    · exact ih

theorem dictLookup_append_self [DecidableEq κ] (m : List (κ × μ)) (k : κ) (v : μ)
    (h : dictLookup m k = none) : dictLookup (m ++ [(k, v)]) k = some v := by
  induction m with
  | nil => simp [dictLookup]
  | cons p rest ih =>
    rw [List.cons_append, dictLookup]
    rw [dictLookup] at h
    split
    · split at h
      · exact absurd h (by simp)
      · simp_all
    · split at h
      · simp_all
      · exact ih h

theorem query_item_hit [DecidableEq κ] (ds : Option (List κ × (κ → ι)))
    (cache : List (κ × ι)) (fg : Bool) (k : κ) (v : ι)
    (h : dictLookup cache k = some v) :
    CachedDataset.query_item ⟨ds, cache, fg⟩ k = some (v, ⟨ds, cache, fg⟩) := by
  simp only [CachedDataset.query_item, h]

theorem query_item_miss [DecidableEq κ] (innerKeys : List κ) (q : κ → ι)
    (cache : List (κ × ι)) (fg : Bool) (k : κ)
    (h : dictLookup cache k = none) :
    CachedDataset.query_item ⟨some (innerKeys, q), cache, fg⟩ k =
      some (q k, ⟨some (innerKeys, q), cache ++ [(k, q k)], fg⟩) := by
  simp only [CachedDataset.query_item, h]

theorem fillLoop_cons_miss [DecidableEq κ] (innerKeys : List κ) (q : κ → ι)
    (cache : List (κ × ι)) (fg : Bool) (k : κ) (ks : List κ)
    (h : dictLookup cache k = none) :
    CachedDataset.fillLoop ⟨some (innerKeys, q), cache, fg⟩ (k :: ks) =
      CachedDataset.fillLoop ⟨some (innerKeys, q), cache ++ [(k, q k)], fg⟩ ks := by
  rw [CachedDataset.fillLoop, query_item_miss innerKeys q cache fg k h]

theorem fillLoop_cons_hit [DecidableEq κ] (ds : Option (List κ × (κ → ι)))
    (cache : List (κ × ι)) (fg : Bool) (k : κ) (ks : List κ) (v : ι)
    (h : dictLookup cache k = some v) :
    CachedDataset.fillLoop ⟨ds, cache, fg⟩ (k :: ks) =
      CachedDataset.fillLoop ⟨ds, cache, fg⟩ ks := by
  rw [CachedDataset.fillLoop, query_item_hit ds cache fg k v h]

/-- Invariant of the fill loop: the inner dataset and the `forgotten` flag are
kept, every already cached key stays cached with its value, and afterwards
every processed key is cached with the inner item (unless it was already
cached before the loop). -/
theorem fillLoop_spec [DecidableEq κ] (innerKeys : List κ) (q : κ → ι) (ks : List κ) :
    ∀ (cache : List (κ × ι)) (fg : Bool),
      (CachedDataset.fillLoop ⟨some (innerKeys, q), cache, fg⟩ ks).dataset
          = some (innerKeys, q) ∧
      (CachedDataset.fillLoop ⟨some (innerKeys, q), cache, fg⟩ ks).forgotten = fg ∧
      (∀ k v, dictLookup cache k = some v →
        dictLookup (CachedDataset.fillLoop ⟨some (innerKeys, q), cache, fg⟩ ks).cache k
          = some v) ∧
      (∀ k ∈ ks,
        dictLookup (CachedDataset.fillLoop ⟨some (innerKeys, q), cache, fg⟩ ks).cache k
            = some (q k) ∨
          dictLookup cache k ≠ none) := by
  induction ks with
  | nil =>
    intro cache fg
    exact ⟨rfl, rfl, fun k v h => h, by simp⟩
  | cons k ks ih =>
    intro cache fg
    rcases hcache : dictLookup cache k with _ | v
    · rw [fillLoop_cons_miss innerKeys q cache fg k ks hcache]
      obtain ⟨ih1, ih2, ih3, ih4⟩ := ih (cache ++ [(k, q k)]) fg
      refine ⟨ih1, ih2, ?_, ?_⟩
      · intro k' v' hk'
        apply ih3
        have hne : k' ≠ k := by
          intro he
          rw [he, hcache] at hk'
          exact Option.noConfusion hk'
        rw [dictLookup_append_ne _ _ _ _ hne]
        exact hk'
      · intro k' hk'
        rcases List.mem_cons.mp hk' with rfl | hk''
        · exact Or.inl (ih3 _ _ (dictLookup_append_self _ _ _ hcache))
        · rcases ih4 k' hk'' with h | h
          · exact Or.inl h
          · by_cases hkk : k' = k
            · subst hkk
              exact Or.inl (ih3 _ _ (dictLookup_append_self _ _ _ hcache))
            · rw [dictLookup_append_ne _ _ _ _ hkk] at h
              exact Or.inr h
    · rw [fillLoop_cons_hit _ cache fg k ks v hcache]
      obtain ⟨ih1, ih2, ih3, ih4⟩ := ih cache fg
      refine ⟨ih1, ih2, ih3, ?_⟩
      intro k' hk'
      rcases List.mem_cons.mp hk' with rfl | hk''
      · refine Or.inr ?_
        rw [hcache]
        exact fun h => Option.noConfusion h
      · exact ih4 k' hk''

theorem dictLookup_mem_keys [DecidableEq κ] (m : List (κ × μ)) (k : κ) (v : μ)
    (h : dictLookup m k = some v) : k ∈ m.map Prod.fst := by
  induction m with
  | nil => exact Option.noConfusion h
  | cons p rest ih =>
    rw [dictLookup] at h
    split at h
    · simp_all
    · simp [ih h]

theorem fillLoop_cache_keys [DecidableEq κ] (innerKeys : List κ) (q : κ → ι)
    (ks : List κ) :
    ∀ (cache : List (κ × ι)) (fg : Bool),
      ∀ k ∈ (CachedDataset.fillLoop ⟨some (innerKeys, q), cache, fg⟩ ks).cache.map
        Prod.fst, k ∈ cache.map Prod.fst ∨ k ∈ ks := by
  induction ks with
  | nil =>
    intro cache fg k hk
    exact Or.inl hk
  | cons k ks ih =>
    intro cache fg k' hk'
    rcases hcache : dictLookup cache k with _ | v
    · rw [fillLoop_cons_miss innerKeys q cache fg k ks hcache] at hk'
      rcases ih (cache ++ [(k, q k)]) fg k' hk' with h | h
      · simp only [List.map_append, List.mem_append, List.map_cons, List.map_nil,
          List.mem_singleton] at h
        rcases h with h | h
        · exact Or.inl h
        · exact Or.inr (by simp [h])
      · exact Or.inr (by simp [h])
    · rw [fillLoop_cons_hit _ cache fg k ks v hcache] at hk'
      rcases ih cache fg k' hk' with h | h
      · exact Or.inl h
      · exact Or.inr (by simp [h])

/-- C8: after `fill_forget()` on a fresh cache over an inner dataset with key
enumeration `innerKeys` and item function `q`: the reference to the inner
dataset is dropped, `list_keys()` yields exactly the enumerated key set, and
`query_item` on every enumerated key succeeds from the cache alone (the
returned item is the inner item and the state is unchanged — a pure cache
hit; with `dataset = none` no inner call is possible). -/
theorem fill_forget_spec [DecidableEq κ] (innerKeys : List κ) (q : κ → ι) :
    ((CachedDataset.init innerKeys q : CachedDataset κ ι).fill_forget.dataset = none) ∧
    (∃ L, (CachedDataset.init innerKeys q :
        CachedDataset κ ι).fill_forget.list_keys = some L ∧
      ∀ k, k ∈ L ↔ k ∈ innerKeys) ∧
    (∀ k, k ∈ innerKeys →
      (CachedDataset.init innerKeys q : CachedDataset κ ι).fill_forget.query_item k =
        some (q k, (CachedDataset.init innerKeys q :
          CachedDataset κ ι).fill_forget)) := by
  obtain ⟨h1, h2, h3, h4⟩ := fillLoop_spec innerKeys q innerKeys [] false
  have hff : (CachedDataset.init innerKeys q : CachedDataset κ ι).fill_forget =
      ⟨none, (CachedDataset.fillLoop
        (⟨some (innerKeys, q), [], false⟩ : CachedDataset κ ι) innerKeys).cache,
        true⟩ := rfl
  have hcached : ∀ k ∈ innerKeys,
      dictLookup (CachedDataset.fillLoop
        (⟨some (innerKeys, q), [], false⟩ : CachedDataset κ ι) innerKeys).cache k
          = some (q k) := by
    intro k hk
    rcases h4 k hk with h | h
    · exact h
    · exact absurd rfl h
  refine ⟨by rw [hff], ⟨(CachedDataset.fillLoop
      (⟨some (innerKeys, q), [], false⟩ : CachedDataset κ ι) innerKeys).cache.map
        Prod.fst, by rw [hff]; rfl, ?_⟩, ?_⟩
  · intro k
    constructor
    · intro hk
      rcases fillLoop_cache_keys innerKeys q innerKeys [] false k hk with h | h
      · simp at h
      · exact h
    · intro hk
      exact dictLookup_mem_keys _ _ _ (hcached k hk)
  · intro k hk
    rw [hff]
    exact query_item_hit none _ true k (q k) (hcached k hk)

/-- Witness for C8 at `innerKeys = [1, 2, 1]`, `q = (· * 10)`. -/
theorem fill_forget_spec_witness :
    ((CachedDataset.init [1, 2, 1] (· * 10) : CachedDataset Nat Nat).fill_forget.dataset
        = none) ∧
    (∃ L, (CachedDataset.init [1, 2, 1] (· * 10) :
        CachedDataset Nat Nat).fill_forget.list_keys = some L ∧
      ∀ k, k ∈ L ↔ k ∈ [1, 2, 1]) ∧
    (∀ k, k ∈ [1, 2, 1] →
      (CachedDataset.init [1, 2, 1] (· * 10) :
          CachedDataset Nat Nat).fill_forget.query_item k =
        some (k * 10, (CachedDataset.init [1, 2, 1] (· * 10) :
          CachedDataset Nat Nat).fill_forget)) :=
  fill_forget_spec [1, 2, 1] (· * 10)

/-! ## pickle_or_load, creation phase (datasets.py lines 505-520)

```
was_existing = os.path.exists(path)
if overwrite and was_existing:
    _close(path); os.remove(path); was_existing = False
if not was_existing:
    file = None
    if before_pickling is not None:
        before_pickling()
    try:
        with _open_once(path, "wb") as file:
            PickledDataset.create(dataset, file, keys=keys)
    except BaseException as exc:
        if file is not None:
            os.remove(path)
        raise
```

The filesystem at the target path is `Option C` (`none` = no file, `some c` =
a file with content `c`).  The creation step is one of four outcomes,
distinguished by where a fault (if any) is raised relative to the creation of
the destination file:
- a fault in `before_pickling` (before the `try`, `file` is still `None`),
- a fault in `_open_once` itself (inside the `try` but `file` is still
  `None`, the destination was not created),
- a fault inside `PickledDataset.create` after the destination file was
  created (`file is not None`, the path holds partial content), or
- success.
The result pairs the control outcome (`ok` or the re-raised fault) with the
final filesystem state at the path. -/

inductive CreatePhase (ε C : Type) where
  | beforePicklingFault (e : ε)
  | openFault (e : ε)
  | createFault (e : ε) (partialContent : C)
  | success (c : C)

/-- The `if not was_existing` body (lines 510-520). -/
def runCreate (fs : Option C) : CreatePhase ε C → Except ε Unit × Option C
  | .beforePicklingFault e => (.error e, fs)
  | .openFault e => (.error e, fs)
  | .createFault e _ => (.error e, none)
  | .success c => (.ok (), some c)

/-- Lines 505-520 of `pickle_or_load`: existence test, optional overwrite
removal, then creation when the path does not hold a file. -/
def pickleOrLoadCreate (fs : Option C) (overwrite : Bool)
    (phase : CreatePhase ε C) : Except ε Unit × Option C :=
  match (if overwrite then none else fs) with
  | some c => (.ok (), some c)
  | none => runCreate (if overwrite then none else fs) phase

/-- C2: when the path does not yet exist and the creation step raises any
fault after the destination file has been created (partial content on disk),
`pickle_or_load` deletes the destination and re-raises: the fault propagates
and no file remains at the target path. -/
theorem pickle_or_load_cleanup_spec (overwrite : Bool) (e : ε) (p : C) :
    pickleOrLoadCreate (none : Option C) overwrite (.createFault e p) =
      (.error e, none) := by
  rw [pickleOrLoadCreate]
  cases overwrite <;> rfl

/-! ## pickle_or_load, staleness phase (datasets.py lines 521-559)

```
for k in chunk:
    true_item = dataset.query_item(k)
    try:
        try:
            loaded_item = opened_dataset.query_item(k)
        except KeyError as exc:
            raise DiffReason("Pickled dataset does not contain key " + str(exc))
        equality = dataset.items_equality(true_item, loaded_item)
    except DiffReason as r:
        reason = r; equality = False
    except Exception:
        sys.stderr.write("Warning: Could not check whether ...")
        raise
    if not equality:
        <warning written to stderr>
        break
return opened_dataset
```

Per checked key the store lookup either raises KeyError (embedded as
`Except.error msg`) or yields an item; `items_equality` is embedded as an
evaluator that returns a boolean, raises a `DiffReason`, or raises a generic
fault.  Note the `except Exception: ... raise`: a generic comparison fault is
re-raised after the diagnostic, it is NOT downgraded to a mismatch. -/

inductive CmpEval (ε : Type) where
  | ok (b : Bool)
  | diffReason (msg : String)
  | fault (e : ε)

/-- One iteration of the check loop: `ok (equality, reason)` or the re-raised
fault. -/
def checkOne (cmp : ι → ι → CmpEval ε) (trueItem : ι) (loaded : Except String ι) :
    Except ε (Bool × Option String) :=
  match loaded with
  | .error msg => .ok (false, some ("Pickled dataset does not contain key " ++ msg))
  | .ok loadedItem =>
    match cmp trueItem loadedItem with
    | .ok b => .ok (b, none)
    | .diffReason r => .ok (false, some r)
    | .fault e => .error e

/-- Outcome of the whole staleness loop: every key matched (`clean`), a
mismatch was warned about and the loop broke (`mismatchWarned`, the store is
still returned), or an exception propagated to the caller (`raised`). -/
inductive StaleOutcome (ε : Type) where
  | clean
  | mismatchWarned (reason : Option String)
  | raised (e : ε)
deriving Repr

/-- The `for k in chunk` loop, over the list of (fresh item, store lookup
outcome) pairs for the checked keys. -/
def stalenessPhase (cmp : ι → ι → CmpEval ε) :
    List (ι × Except String ι) → StaleOutcome ε
  | [] => .clean
  | (t, l) :: rest =>
    match checkOne cmp t l with
    | .error e => .raised e
    | .ok (true, _) => stalenessPhase cmp rest
    | .ok (false, r) => .mismatchWarned r

/-- Counterexample to C7 as stated: a generic fault raised while comparing the
fresh and stored items (here: the comparison of the single checked key `0`
faults) is NOT treated as a mismatch — `pickle_or_load` re-raises it after a
diagnostic, so a staleness-check outcome does propagate as an exception to
the caller. -/
theorem staleness_fault_propagates_cex :
    stalenessPhase (fun _ _ : Nat => CmpEval.fault ()) [(0, Except.ok 0)] =
      .raised () ∧
    ∀ r, (StaleOutcome.raised () : StaleOutcome Unit) ≠ .mismatchWarned r :=
  ⟨rfl, fun r h => StaleOutcome.noConfusion h⟩

/-- C7 (amended): a missing key is treated as a mismatch with a recorded
reason, and a `DiffReason` raised while comparing is treated the same way —
both produce only a warning and the store is still returned; but a generic
comparison fault is re-raised to the caller after a diagnostic.  So: whenever
the comparison evaluator raises no generic fault on the checked items, no
staleness-check outcome propagates as an exception. -/
theorem staleness_nonfatal_spec (cmp : ι → ι → CmpEval ε)
    (checks : List (ι × Except String ι))
    (hnofault : ∀ p ∈ checks, ∀ li, p.2 = Except.ok li →
      ∀ e, cmp p.1 li ≠ CmpEval.fault e) :
    (∀ e, stalenessPhase cmp checks ≠ .raised e) ∧
    (∀ t msg, checkOne cmp t (Except.error msg) =
      .ok (false, some ("Pickled dataset does not contain key " ++ msg))) ∧
    (∀ t li r, cmp t li = CmpEval.diffReason r →
      checkOne cmp t (Except.ok li) = .ok (false, some r)) := by
  refine ⟨?_, fun t msg => rfl, ?_⟩
  · induction checks with
    | nil => exact fun e h => StaleOutcome.noConfusion h
    | cons p rest ih =>
      intro e
      obtain ⟨t, l⟩ := p
      rw [stalenessPhase]
      rcases hl : checkOne cmp t l with e' | ⟨b, r⟩
      · exfalso
        rcases l with msg | li
        · rw [checkOne] at hl
          exact Except.noConfusion hl
        · rw [checkOne] at hl
          rcases hc : cmp t li with b | m | e''
          · rw [hc] at hl; exact Except.noConfusion hl
          · rw [hc] at hl; exact Except.noConfusion hl
          · exact hnofault (t, .ok li) (by simp) li rfl e'' hc
      · rcases b with _ | _
        · exact fun h => StaleOutcome.noConfusion h
        · exact ih (fun p hp => hnofault p (by simp [hp])) e
  · intro t li r hc
    rw [checkOne, hc]

/-- Witness for the amended C7: one missing key followed by one `DiffReason`
comparison — the loop warns and no exception propagates. -/
theorem staleness_nonfatal_witness :
    ((∀ p ∈ ([((0 : Nat), Except.error "0"), (1, Except.ok 5)] :
        List (Nat × Except String Nat)), ∀ li, p.2 = Except.ok li →
      ∀ e : Unit,
        (fun _ _ : Nat => (CmpEval.diffReason "drifted" : CmpEval Unit)) p.1 li ≠
          CmpEval.fault e)) ∧
    ((∀ e : Unit, stalenessPhase
        (fun _ _ : Nat => (CmpEval.diffReason "drifted" : CmpEval Unit))
        [(0, Except.error "0"), (1, Except.ok 5)] ≠ .raised e) ∧
     (∀ t msg, checkOne
        (fun _ _ : Nat => (CmpEval.diffReason "drifted" : CmpEval Unit))
        t (Except.error msg) =
        .ok (false, some ("Pickled dataset does not contain key " ++ msg))) ∧
     (∀ t li r,
        (fun _ _ : Nat => (CmpEval.diffReason "drifted" : CmpEval Unit)) t li =
          CmpEval.diffReason r →
      checkOne (fun _ _ : Nat => (CmpEval.diffReason "drifted" : CmpEval Unit))
          t (Except.ok li) =
        .ok (false, some r))) :=
  ⟨fun p _ li _ e h => CmpEval.noConfusion h,
    staleness_nonfatal_spec
      (fun _ _ : Nat => (CmpEval.diffReason "drifted" : CmpEval Unit))
      [(0, Except.error "0"), (1, Except.ok 5)]
      (fun p _ li _ e h => CmpEval.noConfusion h)⟩

/-! ## PickledDataset (datasets.py lines 372-461)

The on-disk store.  A pickle file is a byte stream; we model it as a set of
live records, each occupying the half-open byte interval
`[start, start + size)` and holding one pickled value, plus the current seek
position.  `pickler.dump(v)` writes a record at the current position (any
previously written bytes it overlaps are destroyed) and advances by the
record's size; `unpickler.load()` succeeds exactly when a live record starts
at the current position.  Sizes are given by an abstract size function `sz`
(pickle encodings have positive length, and integers with bit 65 set — the
`1 << 65`-biased header values of lines 397 and 415 — all encode to the same
width; both facts enter the round-trip theorem as hypotheses on `sz`).

Pickled values: the header integer, an item, the key→offset index, and a
context map (dumped only when the source dataset has a truthy `_context`,
line 410-412; its content is irrelevant to the claims). -/

inductive PValue (κ ι : Type) where
  | pint (n : Nat)
  | item (x : ι)
  | index (m : List (κ × Nat))
  | ctx

structure PRecord (κ ι : Type) where
  start : Nat
  size : Nat
  val : PValue κ ι

structure PFile (κ ι : Type) where
  records : List (PRecord κ ι)
  pos : Nat

/-- Records untouched by an overwrite of the interval `[start, stop)`. -/
def eraseOverlap (rs : List (PRecord κ ι)) (start stop : Nat) :
    List (PRecord κ ι) :=
  rs.filter (fun r => decide (r.start + r.size ≤ start ∨ stop ≤ r.start))

/-- `pickler.dump(v)` at the current position. -/
def PFile.dump (sz : PValue κ ι → Nat) (f : PFile κ ι) (v : PValue κ ι) :
    PFile κ ι :=
  { records := ⟨f.pos, sz v, v⟩ :: eraseOverlap f.records f.pos (f.pos + sz v),
    pos := f.pos + sz v }

/-- `file_handler.seek(o)`. -/
def PFile.seek (f : PFile κ ι) (o : Nat) : PFile κ ι := { f with pos := o }

/-- `unpickler.load()` at the current position (reading never mutates the
file; every read in the source is preceded by a seek). -/
def PFile.loadAtPos (f : PFile κ ι) : Option (PRecord κ ι) :=
  f.records.find? (fun r => r.start == f.pos)

/-- Python dict assignment `index[key] = offset` (line 402): replace an
existing binding in place, else append (insertion order). -/
def dictInsert [DecidableEq κ] : List (κ × Nat) → κ → Nat → List (κ × Nat)
  | [], k, v => [(k, v)]
  | (k', v') :: rest, k, v =>
    if k = k' then (k, v) :: rest else (k', v') :: dictInsert rest k v

/-- The item loop of `create` (lines 400-405): `index[key] =
file_handler.tell()`, then pickle `dataset.query_item(key)` and advance
(`pickler.memo.clear()` only affects encoding sharing, not the layout). -/
def writeItems [DecidableEq κ] (sz : PValue κ ι → Nat) (d : κ → ι) :
    List κ → PFile κ ι → List (κ × Nat) → PFile κ ι × List (κ × Nat)
  | [], f, idx => (f, idx)
  | k :: ks, f, idx =>
    writeItems sz d ks (f.dump sz (.item (d k))) (dictInsert idx k f.pos)

/-- Total pickled size of the item region. -/
def itemsSize (sz : PValue κ ι → Nat) (d : κ → ι) (keys : List κ) : Nat :=
  (keys.map (fun k => sz (.item (d k)))).sum

/-- `PickledDataset.create` (lines 388-416): seek to 0 and dump the 64-bit
placeholder `1 << 65`; dump every item, recording offsets in the index; dump
the index, then the context map if the dataset carries one; finally seek back
to 0 and overwrite the header with `index_location ^ (1 << 65)`. -/
def PickledDataset.create [DecidableEq κ] (sz : PValue κ ι → Nat) (d : κ → ι)
    (keys : List κ) (hasCtx : Bool) : PFile κ ι :=
  let f1 := (PFile.seek ⟨[], 0⟩ 0).dump sz (.pint (2 ^ 65))
  let fi := writeItems sz d keys f1 []
  let indexLocation := fi.1.pos
  let f2 := fi.1.dump sz (.index fi.2)
  let f3 := if hasCtx then f2.dump sz .ctx else f2
  (f3.seek 0).dump sz (.pint (indexLocation ^^^ 2 ^ 65))

/-- An opened store in default (non-offset-keyed) mode: the in-memory index,
the (read-only) file, and whether a trailing context map was found. -/
structure PStore (κ ι : Type) where
  index : List (κ × Nat)
  file : PFile κ ι
  hasCtx : Bool

/-- `PickledDataset.__init__` in default mode (lines 418-439): seek 0, load
the header integer, XOR off the `1 << 65` bias, seek to the index offset and
load the index; then try to load a context map, tolerating `EOFError`
(lines 431-435).  A malformed file yields `none`. -/
def PickledDataset.openDefault (f : PFile κ ι) : Option (PStore κ ι) :=
  match (f.seek 0).loadAtPos with
  | some ⟨_, _, .pint n⟩ =>
    match (f.seek (n ^^^ 2 ^ 65)).loadAtPos with
    | some ⟨o, s, .index m⟩ =>
      some { index := m, file := f,
             hasCtx := match (f.seek (o + s)).loadAtPos with
                       | some ⟨_, _, .ctx⟩ => true
                       | _ => false }
    | _ => none
  | _ => none

/-- `_default_query_item` (lines 453-457): seek to `self.index[key]` and load
one item (`KeyError` on a missing key and any malformed read are `none`). -/
def PStore.query_item [DecidableEq κ] (st : PStore κ ι) (k : κ) : Option ι :=
  match dictLookup st.index k with
  | none => none
  | some o =>
    match (st.file.seek o).loadAtPos with
    | some ⟨_, _, .item x⟩ => some x
    | _ => none

theorem dictLookup_insert_self [DecidableEq κ] (m : List (κ × Nat)) (k : κ)
    (v : Nat) : dictLookup (dictInsert m k v) k = some v := by
  induction m with
  | nil => simp [dictInsert, dictLookup]
  | cons p rest ih =>
    obtain ⟨k', v'⟩ := p
    rw [dictInsert]
    split
    · next h => rw [dictLookup, if_pos rfl]
    · next h => rw [dictLookup, if_neg h]; exact ih

theorem dictLookup_insert_ne [DecidableEq κ] (m : List (κ × Nat)) (k k' : κ)
    (v : Nat) (h : k' ≠ k) :
    dictLookup (dictInsert m k v) k' = dictLookup m k' := by
  induction m with
  | nil => simp [dictInsert, dictLookup, h]
  | cons p rest ih =>
    obtain ⟨k'', v''⟩ := p
    rw [dictInsert]
    split
    · next he =>
      subst he
      rw [dictLookup, if_neg h, dictLookup, if_neg h]
    · rw [dictLookup, dictLookup]
      split
      · rfl
      · exact ih

theorem eraseOverlap_of_le (rs : List (PRecord κ ι)) (start stop : Nat)
    (h : ∀ r ∈ rs, r.start + r.size ≤ start) :
    eraseOverlap rs start stop = rs := by
  apply List.filter_eq_self.mpr
  intro r hr
  simp only [decide_eq_true_eq]
  exact Or.inl (h r hr)

/-- Writing at the end of a well-formed file destroys nothing and keeps the
layout well formed. -/
theorem dump_spec (sz : PValue κ ι → Nat) (hszpos : ∀ v, 0 < sz v)
    (f : PFile κ ι) (v : PValue κ ι)
    (hwf : ∀ r ∈ f.records, 0 < r.size ∧ r.start + r.size ≤ f.pos) :
    (f.dump sz v).records = ⟨f.pos, sz v, v⟩ :: f.records ∧
    (f.dump sz v).pos = f.pos + sz v ∧
    (∀ r ∈ (f.dump sz v).records,
      0 < r.size ∧ r.start + r.size ≤ (f.dump sz v).pos) ∧
    ((f.records.map PRecord.start).Nodup →
      ((f.dump sz v).records.map PRecord.start).Nodup) := by
  have herase : eraseOverlap f.records f.pos (f.pos + sz v) = f.records :=
    eraseOverlap_of_le f.records f.pos (f.pos + sz v) (fun r hr => (hwf r hr).2)
  have hrecs : (f.dump sz v).records = ⟨f.pos, sz v, v⟩ :: f.records := by
    rw [PFile.dump, herase]
  have hpos : (f.dump sz v).pos = f.pos + sz v := rfl
  refine ⟨hrecs, rfl, ?_, ?_⟩
  · intro r hr
    rw [hrecs] at hr
    rw [hpos]
    rcases List.mem_cons.mp hr with rfl | hr'
    · exact ⟨hszpos v, le_refl _⟩
    · obtain ⟨h1, h2⟩ := hwf r hr'
      exact ⟨h1, by omega⟩
  · intro hnodup
    rw [hrecs, List.map_cons]
    apply List.nodup_cons.mpr
    refine ⟨?_, hnodup⟩
    intro hmem
    obtain ⟨r, hr, hre⟩ := List.mem_map.mp hmem
    obtain ⟨h1, h2⟩ := hwf r hr
    have h3 : r.start = f.pos := hre
    omega

theorem find?_start_eq (rs : List (PRecord κ ι)) (r : PRecord κ ι) (hr : r ∈ rs)
    (hnodup : (rs.map PRecord.start).Nodup) :
    rs.find? (fun x => x.start == r.start) = some r := by
  induction rs with
  | nil => cases hr
  | cons a rs ih =>
    rw [List.map_cons, List.nodup_cons] at hnodup
    rcases List.mem_cons.mp hr with rfl | hr'
    · exact List.find?_cons_of_pos _ (by simp)
    · have hne : ¬ (a.start == r.start) = true := by
        simp only [beq_iff_eq]
        intro he
        exact hnodup.1 (he ▸ List.mem_map.mpr ⟨r, hr', rfl⟩)
      rw [show List.find? (fun x => x.start == r.start) (a :: rs) =
          List.find? (fun x => x.start == r.start) rs from
        List.find?_cons_of_neg rs hne]
      exact ih hr' hnodup.2

theorem loadAtPos_of_mem (f : PFile κ ι) (r : PRecord κ ι) (hr : r ∈ f.records)
    (hstart : f.pos = r.start)
    (hnodup : (f.records.map PRecord.start).Nodup) :
    f.loadAtPos = some r := by
  rw [PFile.loadAtPos, hstart]
  exact find?_start_eq f.records r hr hnodup

/-- The item-loop invariant: sequential writes advance the position by the
total item size, preserve existing records, keep the layout well formed with
distinct record starts, index every written key at an offset holding that
key's item record, leave other index entries alone, and only add records at
or beyond the starting position. -/
theorem writeItems_spec [DecidableEq κ] (sz : PValue κ ι → Nat) (d : κ → ι)
    (hszpos : ∀ v, 0 < sz v) (keys : List κ) :
    ∀ (f : PFile κ ι) (idx : List (κ × Nat)),
      (∀ r ∈ f.records, 0 < r.size ∧ r.start + r.size ≤ f.pos) →
      (writeItems sz d keys f idx).1.pos = f.pos + itemsSize sz d keys ∧
      (∀ r ∈ f.records, r ∈ (writeItems sz d keys f idx).1.records) ∧
      (∀ r ∈ (writeItems sz d keys f idx).1.records,
        0 < r.size ∧ r.start + r.size ≤ (writeItems sz d keys f idx).1.pos) ∧
      (∀ k ∈ keys,
        ∃ o, dictLookup (writeItems sz d keys f idx).2 k = some o ∧
          (⟨o, sz (.item (d k)), .item (d k)⟩ : PRecord κ ι) ∈
            (writeItems sz d keys f idx).1.records) ∧
      (∀ k, k ∉ keys →
        dictLookup (writeItems sz d keys f idx).2 k = dictLookup idx k) ∧
      ((f.records.map PRecord.start).Nodup →
        ((writeItems sz d keys f idx).1.records.map PRecord.start).Nodup) ∧
      (∀ r ∈ (writeItems sz d keys f idx).1.records,
        r ∈ f.records ∨ f.pos ≤ r.start) := by
  induction keys with
  | nil =>
    intro f idx hwf
    exact ⟨by simp [writeItems, itemsSize], fun r hr => hr, hwf, by simp,
      fun k _ => rfl, fun h => h, fun r hr => Or.inl hr⟩
  | cons k ks ih =>
    intro f idx hwf
    obtain ⟨hdrecs, hdpos, hdwf, hdnodup⟩ :=
      dump_spec sz hszpos f (.item (d k)) hwf
    obtain ⟨ih1, ih2, ih3, ih4, ih5, ih6, ih7⟩ :=
      ih (f.dump sz (.item (d k))) (dictInsert idx k f.pos) hdwf
    have hw : writeItems sz d (k :: ks) f idx =
        writeItems sz d ks (f.dump sz (.item (d k))) (dictInsert idx k f.pos) :=
      rfl
    rw [hw]
    have hmemf : ∀ r ∈ f.records, r ∈ (f.dump sz (.item (d k))).records := by
      intro r hr
      rw [hdrecs]
      exact List.mem_cons_of_mem _ hr
    refine ⟨?_, ?_, ih3, ?_, ?_, ?_, ?_⟩
    · rw [ih1, hdpos]
      simp only [itemsSize, List.map_cons, List.sum_cons]
      omega
    · exact fun r hr => ih2 r (hmemf r hr)
    · intro k' hk'
      rcases List.mem_cons.mp hk' with rfl | hk''
      · by_cases hmem : k' ∈ ks
        · exact ih4 k' hmem
        · refine ⟨f.pos, ?_, ?_⟩
          · rw [ih5 k' hmem, dictLookup_insert_self]
          · apply ih2
            rw [hdrecs]
            exact List.mem_cons_self _ _
      · exact ih4 k' hk''
    · intro k' hk'
      have hk1 : k' ≠ k := fun he => hk' (he ▸ List.mem_cons_self k ks)
      have hk2 : k' ∉ ks := fun hm => hk' (List.mem_cons_of_mem k hm)
      rw [ih5 k' hk2, dictLookup_insert_ne idx k k' f.pos hk1]
    · exact fun hnd => ih6 (hdnodup hnd)
    · intro r hr
      rcases ih7 r hr with hmem | hge
      · rw [hdrecs] at hmem
        rcases List.mem_cons.mp hmem with rfl | hmem'
        · exact Or.inr (le_refl _)
        · exact Or.inl hmem'
      · rw [hdpos] at hge
        exact Or.inr (by omega)

theorem xor_two_pow_ge {a n : Nat} (h : a < 2 ^ n) : 2 ^ n ≤ a ^^^ 2 ^ n := by
  by_contra hlt
  push_neg at hlt
  have hx : (a ^^^ 2 ^ n) ^^^ a = 2 ^ n := by
    rw [Nat.xor_comm a (2 ^ n), Nat.xor_assoc, Nat.xor_self, Nat.xor_zero]
  have h2 : (a ^^^ 2 ^ n) ^^^ a < 2 ^ n := Nat.xor_lt_two_pow hlt h
  rw [hx] at h2
  exact absurd h2 (lt_irrefl _)

theorem xor_two_pow_lt {a n : Nat} (h : a < 2 ^ n) : a ^^^ 2 ^ n < 2 ^ (n + 1) := by
  have hstep : 2 ^ n < 2 ^ (n + 1) := by
    have : 2 ^ (n + 1) = 2 ^ n * 2 := by ring
    omega
  exact Nat.xor_lt_two_pow (lt_trans h hstep) hstep

theorem openDefault_of_reads (F : PFile κ ι) (s0 z0 n o s : Nat)
    (m : List (κ × Nat))
    (h0 : (F.seek 0).loadAtPos = some ⟨s0, z0, .pint n⟩)
    (hi : (F.seek (n ^^^ 2 ^ 65)).loadAtPos = some ⟨o, s, .index m⟩) :
    PickledDataset.openDefault F = some
      { index := m, file := F,
        hasCtx := match (F.seek (o + s)).loadAtPos with
                  | some ⟨_, _, .ctx⟩ => true
                  | _ => false } := by
  rw [PickledDataset.openDefault]
  simp only [h0, hi]

/-- The tail of `create` after the item loop: dump the index, the optional
context, and the rewritten header; then the reopened store resolves every
written key back to its item. -/
theorem create_tail_spec [DecidableEq κ] (sz : PValue κ ι → Nat) (d : κ → ι)
    (hszpos : ∀ v, 0 < sz v)
    (hhdr : ∀ n, 2 ^ 65 ≤ n → n < 2 ^ 66 → sz (.pint n) = sz (.pint (2 ^ 65)))
    (keys : List κ) (hasCtx : Bool) (fi : PFile κ ι) (idx : List (κ × Nat))
    (hwf : ∀ r ∈ fi.records, 0 < r.size ∧ r.start + r.size ≤ fi.pos)
    (hnodup : (fi.records.map PRecord.start).Nodup)
    (hlow : ∀ r ∈ fi.records,
      r = ⟨0, sz (.pint (2 ^ 65)), .pint (2 ^ 65)⟩ ∨ sz (.pint (2 ^ 65)) ≤ r.start)
    (hlookup : ∀ k ∈ keys, ∃ o, dictLookup idx k = some o ∧
      (⟨o, sz (.item (d k)), .item (d k)⟩ : PRecord κ ι) ∈ fi.records)
    (hh1loc : sz (.pint (2 ^ 65)) ≤ fi.pos)
    (hloclt : fi.pos < 2 ^ 65) :
    ∃ st, PickledDataset.openDefault
        (((if hasCtx then (fi.dump sz (.index idx)).dump sz .ctx
           else fi.dump sz (.index idx)).seek 0).dump sz
          (.pint (fi.pos ^^^ 2 ^ 65))) = some st ∧
      st.index = idx ∧
      ∀ k ∈ keys, st.query_item k = some (d k) := by
  obtain ⟨h2recs, h2pos, h2wf, h2nodup⟩ := dump_spec sz hszpos fi (.index idx) hwf
  have hf3 : (⟨fi.pos, sz (.index idx), .index idx⟩ : PRecord κ ι) ∈
        (if hasCtx then (fi.dump sz (.index idx)).dump sz .ctx
         else fi.dump sz (.index idx)).records ∧
      (∀ r ∈ fi.records, r ∈
        (if hasCtx then (fi.dump sz (.index idx)).dump sz .ctx
         else fi.dump sz (.index idx)).records) ∧
      (∀ r ∈ (if hasCtx then (fi.dump sz (.index idx)).dump sz .ctx
         else fi.dump sz (.index idx)).records, 0 < r.size) ∧
      (∀ r ∈ (if hasCtx then (fi.dump sz (.index idx)).dump sz .ctx
         else fi.dump sz (.index idx)).records,
        r = ⟨0, sz (.pint (2 ^ 65)), .pint (2 ^ 65)⟩ ∨
          sz (.pint (2 ^ 65)) ≤ r.start) ∧
      ((if hasCtx then (fi.dump sz (.index idx)).dump sz .ctx
         else fi.dump sz (.index idx)).records.map PRecord.start).Nodup := by
    cases hasCtx with
    | false =>
      rw [if_neg (by simp)]
      refine ⟨?_, ?_, ?_, ?_, h2nodup hnodup⟩
      · rw [h2recs]
        exact List.mem_cons_self _ _
      · intro r hr
        rw [h2recs]
        exact List.mem_cons_of_mem _ hr
      · intro r hr
        exact (h2wf r hr).1
      · intro r hr
        rw [h2recs] at hr
        rcases List.mem_cons.mp hr with rfl | hr'
        · exact Or.inr hh1loc
        · exact hlow r hr'
    | true =>
      rw [if_pos rfl]
      obtain ⟨h3recs, h3pos, h3wf, h3nodup⟩ :=
        dump_spec sz hszpos (fi.dump sz (.index idx)) .ctx h2wf
      refine ⟨?_, ?_, ?_, ?_, h3nodup (h2nodup hnodup)⟩
      · rw [h3recs, h2recs]
        exact List.mem_cons_of_mem _ (List.mem_cons_self _ _)
      · intro r hr
        rw [h3recs, h2recs]
        exact List.mem_cons_of_mem _ (List.mem_cons_of_mem _ hr)
      · intro r hr
        exact (h3wf r hr).1
      · intro r hr
        rw [h3recs] at hr
        rcases List.mem_cons.mp hr with rfl | hr'
        · refine Or.inr ?_
          have : (fi.dump sz (.index idx)).pos = fi.pos + sz (.index idx) := h2pos
          simp only [this]
          omega
        · rw [h2recs] at hr'
          rcases List.mem_cons.mp hr' with rfl | hr''
          · exact Or.inr hh1loc
          · exact hlow r hr''
  obtain ⟨hidxmem, hmemI3, hsz3, hlow3, hnodup3⟩ := hf3
  have hxge : 2 ^ 65 ≤ fi.pos ^^^ 2 ^ 65 := xor_two_pow_ge hloclt
  have hxlt : fi.pos ^^^ 2 ^ 65 < 2 ^ 66 := xor_two_pow_lt hloclt
  have hs0 : sz (.pint (fi.pos ^^^ 2 ^ 65)) = sz (.pint (2 ^ 65)) :=
    hhdr _ hxge hxlt
  have hFrecs : (((if hasCtx then (fi.dump sz (.index idx)).dump sz .ctx
        else fi.dump sz (.index idx)).seek 0).dump sz
        (.pint (fi.pos ^^^ 2 ^ 65))).records =
      ⟨0, sz (.pint (fi.pos ^^^ 2 ^ 65)), .pint (fi.pos ^^^ 2 ^ 65)⟩ ::
        eraseOverlap (if hasCtx then (fi.dump sz (.index idx)).dump sz .ctx
          else fi.dump sz (.index idx)).records 0
          (0 + sz (.pint (fi.pos ^^^ 2 ^ 65))) := rfl
  have hfilter_mem : ∀ r ∈ (if hasCtx then (fi.dump sz (.index idx)).dump sz .ctx
        else fi.dump sz (.index idx)).records,
      sz (.pint (2 ^ 65)) ≤ r.start →
      r ∈ eraseOverlap (if hasCtx then (fi.dump sz (.index idx)).dump sz .ctx
        else fi.dump sz (.index idx)).records 0
        (0 + sz (.pint (fi.pos ^^^ 2 ^ 65))) := by
    intro r hr hge
    apply List.mem_filter.mpr
    refine ⟨hr, ?_⟩
    simp only [decide_eq_true_eq]
    refine Or.inr ?_
    omega
  have hnodupF : ((((if hasCtx then (fi.dump sz (.index idx)).dump sz .ctx
        else fi.dump sz (.index idx)).seek 0).dump sz
        (.pint (fi.pos ^^^ 2 ^ 65))).records.map PRecord.start).Nodup := by
    rw [hFrecs, List.map_cons, List.nodup_cons]
    constructor
    · intro hmem
      obtain ⟨r, hr, hre⟩ := List.mem_map.mp hmem
      obtain ⟨hr3m, hr3p⟩ := List.mem_filter.mp hr
      simp only [decide_eq_true_eq] at hr3p
      have hsize := hsz3 r hr3m
      have hstart : r.start = 0 := hre
      have hp := hszpos (.pint (2 ^ 65))
      rcases hr3p with h | h
      · omega
      · omega
    · exact List.Nodup.sublist
        (List.Sublist.map PRecord.start (List.filter_sublist _)) hnodup3
  have hread0 : ((((if hasCtx then (fi.dump sz (.index idx)).dump sz .ctx
        else fi.dump sz (.index idx)).seek 0).dump sz
        (.pint (fi.pos ^^^ 2 ^ 65))).seek 0).loadAtPos =
      some ⟨0, sz (.pint (fi.pos ^^^ 2 ^ 65)), .pint (fi.pos ^^^ 2 ^ 65)⟩ := by
    apply loadAtPos_of_mem
    · show _ ∈ (((if hasCtx then (fi.dump sz (.index idx)).dump sz .ctx
        else fi.dump sz (.index idx)).seek 0).dump sz
        (.pint (fi.pos ^^^ 2 ^ 65))).records
      rw [hFrecs]
      exact List.mem_cons_self _ _
    · rfl
    · exact hnodupF
  have hreadloc : ((((if hasCtx then (fi.dump sz (.index idx)).dump sz .ctx
        else fi.dump sz (.index idx)).seek 0).dump sz
        (.pint (fi.pos ^^^ 2 ^ 65))).seek ((fi.pos ^^^ 2 ^ 65) ^^^ 2 ^ 65)).loadAtPos =
      some ⟨fi.pos, sz (.index idx), .index idx⟩ := by
    have hcancel : (fi.pos ^^^ 2 ^ 65) ^^^ 2 ^ 65 = fi.pos :=
      Nat.xor_cancel_right _ _
    rw [hcancel]
    apply loadAtPos_of_mem
    · show _ ∈ (((if hasCtx then (fi.dump sz (.index idx)).dump sz .ctx
        else fi.dump sz (.index idx)).seek 0).dump sz
        (.pint (fi.pos ^^^ 2 ^ 65))).records
      rw [hFrecs]
      exact List.mem_cons_of_mem _ (hfilter_mem _ hidxmem hh1loc)
    · rfl
    · exact hnodupF
  refine ⟨_, openDefault_of_reads _ _ _ _ _ _ _ hread0 hreadloc, rfl, ?_⟩
  intro k hk
  obtain ⟨o, ho, hrec⟩ := hlookup k hk
  have hoge : sz (.pint (2 ^ 65)) ≤ o := by
    rcases hlow _ hrec with he | hge
    · exfalso
      injection he with he1 he2 he3
      exact PValue.noConfusion he3
    · exact hge
  have hmemF : (⟨o, sz (.item (d k)), .item (d k)⟩ : PRecord κ ι) ∈
      (((if hasCtx then (fi.dump sz (.index idx)).dump sz .ctx
        else fi.dump sz (.index idx)).seek 0).dump sz
        (.pint (fi.pos ^^^ 2 ^ 65))).records := by
    rw [hFrecs]
    exact List.mem_cons_of_mem _ (hfilter_mem _ (hmemI3 _ hrec) hoge)
  have hreadit : ((((if hasCtx then (fi.dump sz (.index idx)).dump sz .ctx
        else fi.dump sz (.index idx)).seek 0).dump sz
        (.pint (fi.pos ^^^ 2 ^ 65))).seek o).loadAtPos =
      some ⟨o, sz (.item (d k)), .item (d k)⟩ := by
    apply loadAtPos_of_mem
    · exact hmemF
    · rfl
    · exact hnodupF
  rw [PStore.query_item]
  simp only [ho, hreadit]

/-- C1: round trip through the store.  For every in-memory dataset (embedded
as its pure `query_item` function `d`) and key list, writing with
`PickledDataset.create` and reopening in default (non-offset-keyed) mode
yields a store whose `query_item` returns the original item for every key of
the list.  Hypotheses on the abstract pickle size function: every encoding is
non-empty; integers in `[2^65, 2^66)` (the biased header values) all encode
to the same width — that is the fixed-width header trick of lines 397/415;
and the file fits below `2^65` so the index offset XOR-biases losslessly. -/
theorem pickled_roundtrip [DecidableEq κ] (sz : PValue κ ι → Nat) (d : κ → ι)
    (keys : List κ) (hasCtx : Bool)
    (hszpos : ∀ v, 0 < sz v)
    (hhdr : ∀ n, 2 ^ 65 ≤ n → n < 2 ^ 66 → sz (.pint n) = sz (.pint (2 ^ 65)))
    (hbound : sz (.pint (2 ^ 65)) + itemsSize sz d keys < 2 ^ 65) :
    ∃ st, PickledDataset.openDefault (PickledDataset.create sz d keys hasCtx)
        = some st ∧
      ∀ k ∈ keys, st.query_item k = some (d k) := by
  have hrecs1 : ((PFile.seek (⟨[], 0⟩ : PFile κ ι) 0).dump sz
      (.pint (2 ^ 65))).records =
      [⟨0, sz (.pint (2 ^ 65)), .pint (2 ^ 65)⟩] := rfl
  have hpos1 : ((PFile.seek (⟨[], 0⟩ : PFile κ ι) 0).dump sz
      (.pint (2 ^ 65))).pos = 0 + sz (.pint (2 ^ 65)) := rfl
  have hf1wf : ∀ r ∈ ((PFile.seek (⟨[], 0⟩ : PFile κ ι) 0).dump sz
      (.pint (2 ^ 65))).records,
      0 < r.size ∧ r.start + r.size ≤
        ((PFile.seek (⟨[], 0⟩ : PFile κ ι) 0).dump sz (.pint (2 ^ 65))).pos := by
    intro r hr
    rw [hrecs1] at hr
    rcases List.mem_cons.mp hr with rfl | hr'
    · refine ⟨hszpos _, ?_⟩
      rw [hpos1]
    · cases hr'
  have hnodup1 : (((PFile.seek (⟨[], 0⟩ : PFile κ ι) 0).dump sz
      (.pint (2 ^ 65))).records.map PRecord.start).Nodup := by
    rw [hrecs1]
    simp
  obtain ⟨hpos, hpresv, hwfW, hlook, hunch, hnodupW, hlowW⟩ :=
    writeItems_spec sz d hszpos keys
      ((PFile.seek (⟨[], 0⟩ : PFile κ ι) 0).dump sz (.pint (2 ^ 65))) [] hf1wf
  have hlow' : ∀ r ∈ (writeItems sz d keys
      ((PFile.seek (⟨[], 0⟩ : PFile κ ι) 0).dump sz (.pint (2 ^ 65))) []).1.records,
      r = ⟨0, sz (.pint (2 ^ 65)), .pint (2 ^ 65)⟩ ∨
        sz (.pint (2 ^ 65)) ≤ r.start := by
    intro r hr
    rcases hlowW r hr with hm | hge
    · rw [hrecs1] at hm
      rcases List.mem_cons.mp hm with rfl | hm'
      · exact Or.inl rfl
      · cases hm'
    · rw [hpos1] at hge
      exact Or.inr (by omega)
  have hh1loc : sz (.pint (2 ^ 65)) ≤ (writeItems sz d keys
      ((PFile.seek (⟨[], 0⟩ : PFile κ ι) 0).dump sz (.pint (2 ^ 65))) []).1.pos := by
    rw [hpos, hpos1]
    omega
  have hloclt : (writeItems sz d keys
      ((PFile.seek (⟨[], 0⟩ : PFile κ ι) 0).dump sz (.pint (2 ^ 65))) []).1.pos
      < 2 ^ 65 := by
    rw [hpos, hpos1]
    omega
  obtain ⟨st, hopen, hidx, hquery⟩ := create_tail_spec sz d hszpos hhdr keys hasCtx
    (writeItems sz d keys
      ((PFile.seek (⟨[], 0⟩ : PFile κ ι) 0).dump sz (.pint (2 ^ 65))) []).1
    (writeItems sz d keys
      ((PFile.seek (⟨[], 0⟩ : PFile κ ι) 0).dump sz (.pint (2 ^ 65))) []).2
    hwfW (hnodupW hnodup1) hlow' hlook hh1loc hloclt
  exact ⟨st, hopen, hquery⟩

/-- Witness for C1: three keys, identity items, every pickled value one byte
wide (which satisfies all three size hypotheses). -/
theorem pickled_roundtrip_witness :
    (∀ v : PValue Nat Nat, 0 < (fun _ : PValue Nat Nat => 1) v) ∧
    (∀ n, 2 ^ 65 ≤ n → n < 2 ^ 66 →
      (fun _ : PValue Nat Nat => 1) (.pint n) =
        (fun _ : PValue Nat Nat => 1) (.pint (2 ^ 65))) ∧
    ((fun _ : PValue Nat Nat => 1) (.pint (2 ^ 65)) +
      itemsSize (fun _ => 1) (fun k : Nat => k + 100) [3, 1, 2] < 2 ^ 65) ∧
    (∃ st, PickledDataset.openDefault
        (PickledDataset.create (fun _ => 1) (fun k : Nat => k + 100)
          [3, 1, 2] false) = some st ∧
      ∀ k ∈ [3, 1, 2], st.query_item k = some (k + 100)) :=
  ⟨fun _ => Nat.one_pos, fun _ _ _ => rfl, by norm_num [itemsSize],
    pickled_roundtrip (fun _ => 1) (fun k : Nat => k + 100) [3, 1, 2] false
      (fun _ => Nat.one_pos) (fun _ _ _ => rfl) (by norm_num [itemsSize])⟩

end MLW

